import Mathlib

/-!
Verification development for the `libnode-membership` gossip-graph / membership
state machine.  The Rust sources (`src/graph.rs`, `src/node_membership.rs`,
`src/failure_detector.rs`, `src/hash.rs`) are shallowly embedded below:

* `NodeId` is a type parameter `N`; the 32-byte `Hash` is a type parameter `H`
  with decidable equality (the concrete instantiation used for tests takes
  `H = Nat`, with `computeHash` standing in for SHA3-256 over the bincode
  serialization: a deterministic digest of all four event fields).
* `BTreeSet<N>` inside `Action::Init` is modelled as a list of node ids, and
  the graph's `BTreeMap<Hash, usize>` as an association list (`lookupIndex`);
  only lookup behaviour matters to the verified claims, and keys are inserted
  only when absent, so the association-list semantics agrees with the map's.
* `Graph::insert` returns the `EventRef` index; fallible hashing is modelled as
  a total function (serialization of well-formed events does not fail).
* the `AncestorIter` `VecDeque` is a list whose head is the deque's back, so
  `pop_back` is head removal and `push_front` appends at the end; the lazy
  iterator is run with explicit fuel (`iterateAncestors`), `some out` meaning
  the iterator reached `None` within the fuel, having yielded `out` in order.
* the boxed `dyn FailureDetector<N>` is a record of the trait's two methods
  over an abstract detector state `D`; `&mut self` methods thread the state.
-/

namespace Gossip

/-- Group membership actions, from `Action` in `src/graph.rs`. -/
inductive Action (N : Type) where
  | Init : List N → Action N
  | Add : N → Action N
  | Remove : N → Action N
deriving DecidableEq

/-- A gossip event, from `Event` in `src/graph.rs`. -/
structure Event (N H : Type) where
  creator_id : N
  self_parent : Option H
  other_parent : Option H
  action : Action N
deriving DecidableEq

/-- A reference to an `Event` and its index in the gossip graph, from
`EventRef` in `src/graph.rs` (the borrowed `&Event` is carried by value). -/
structure EventRef (N H : Type) where
  event : Event N H
  index : Nat
deriving DecidableEq

/-- Hashing errors, from `Error` in `src/hash.rs`. -/
inductive HashError where
  | ComputeHashSerialize
deriving DecidableEq

/-- Gossip graph errors, from `Error` in `src/graph.rs`. -/
inductive GraphError where
  | Hash : HashError → GraphError
deriving DecidableEq

/-- Failure detector errors, from `Error` in `src/failure_detector.rs`. -/
inductive FailureDetectorError where
  | Poll
deriving DecidableEq

/-- Node membership errors, from `Error` in `src/node_membership.rs`. -/
inductive MembershipError where
  | FailureDetector : FailureDetectorError → MembershipError
  | Graph : GraphError → MembershipError
deriving DecidableEq

/-- Lookup in the association list modelling `BTreeMap<Hash, usize>`. -/
def lookupIndex {H : Type} [DecidableEq H] : List (H × Nat) → H → Option Nat
  | [], _ => none
  | (k, v) :: rest, h => if k = h then some v else lookupIndex rest h

/-- A gossip graph, from `Graph` in `src/graph.rs`. -/
structure Graph (N H : Type) where
  events : List (Event N H)
  indices : List (H × Nat)
deriving DecidableEq

/-- Constructs a new, empty gossip graph (`Graph::new` / `Graph::default`). -/
def Graph.new (N H : Type) : Graph N H :=
  { events := [], indices := [] }

/-- Gets the index of an event with the given hash (`Graph::get_index`). -/
def Graph.get_index {N H : Type} [DecidableEq H] (g : Graph N H) (h : H) : Option Nat :=
  lookupIndex g.indices h

/-- Checks whether this graph contains an event with the given hash
(`Graph::contains`). -/
def Graph.contains {N H : Type} [DecidableEq H] (g : Graph N H) (h : H) : Bool :=
  (g.get_index h).isSome

/-- Inserts a new event into the graph (`Graph::insert`): if the event's hash
is already indexed the stored index is returned and the graph is unchanged,
otherwise the event is appended and indexed at the fresh index.  The returned
`Nat` is the `index` field of the returned `EventRef`. -/
def Graph.insert {N H : Type} [DecidableEq H] (hash : Event N H → H) (g : Graph N H)
    (e : Event N H) : Graph N H × Nat :=
  let h := hash e
  match g.get_index h with
  | some index => (g, index)
  | none =>
      let index := g.events.length
      ({ events := g.events ++ [e], indices := (h, index) :: g.indices }, index)

/-- Gets the event with a given index, if it exists (`Graph::get_by_index`). -/
def Graph.get_by_index {N H : Type} (g : Graph N H) (index : Nat) : Option (EventRef N H) :=
  (g.events.get? index).map (fun e => { event := e, index := index })

/-- Gets the event with a given hash, if it exists (`Graph::get_by_hash`). -/
def Graph.get_by_hash {N H : Type} [DecidableEq H] (g : Graph N H) (h : H) :
    Option (EventRef N H) :=
  (g.get_index h).bind g.get_by_index

/-- One invocation of the `add_parent` closure in `AncestorIter::next`: a
present parent hash that resolves in the graph contributes one queued
`EventRef`; an absent or unresolvable hash contributes nothing. -/
def resolveParent {N H : Type} [DecidableEq H] (g : Graph N H) : Option H → List (EventRef N H)
  | none => []
  | some h =>
      match g.get_by_hash h with
      | some p => [p]
      | none => []

/-- The resolved parents of an event, in the order `AncestorIter::next`
enqueues them: `add_parent(event.other_parent())` first, then
`add_parent(event.self_parent())`. -/
def parentsOf {N H : Type} [DecidableEq H] (g : Graph N H) (r : EventRef N H) :
    List (EventRef N H) :=
  resolveParent g r.event.other_parent ++ resolveParent g r.event.self_parent

/-- One call to `AncestorIter::next`: `pop_back` the queue (head of the list in
this back-first representation), `push_front` the resolved other-parent and
then the resolved self-parent (appends at the end), and yield the popped
event; an empty queue yields `none`. -/
def stepQueue {N H : Type} [DecidableEq H] (g : Graph N H) :
    List (EventRef N H) → Option (EventRef N H × List (EventRef N H))
  | [] => none
  | r :: q => some (r, q ++ parentsOf g r)

/-- Runs the ancestor iterator with explicit fuel: `some out` means the
iterator reached `None` (empty queue) within `fuel` calls to `next`, having
yielded `out` in order; `none` means the fuel was exhausted first. -/
def iterateAncestors {N H : Type} [DecidableEq H] (g : Graph N H) :
    Nat → List (EventRef N H) → Option (List (EventRef N H))
  | 0, q => if q.isEmpty then some [] else none
  | fuel + 1, q =>
      match stepQueue g q with
      | none => some []
      | some (r, q1) => (iterateAncestors g fuel q1).map (fun out => r :: out)

/-- Gets all the ancestors of an event in the graph (`Graph::ancestors`): the
iterator's initial queue holds exactly the queried event. -/
def Graph.ancestors {N H : Type} [DecidableEq H] (g : Graph N H) (r : EventRef N H)
    (fuel : Nat) : Option (List (EventRef N H)) :=
  iterateAncestors g fuel [r]

/-- Holds when `b` is a parent of `a` resolvable in `g` (the one-step relation
the ancestor traversal follows). -/
abbrev ParentStep {N H : Type} [DecidableEq H] (g : Graph N H) (a b : EventRef N H) : Prop :=
  b ∈ parentsOf g a

/-- Holds when `b` is `a` itself or a transitive resolvable ancestor of `a`. -/
abbrev Reaches {N H : Type} [DecidableEq H] (g : Graph N H) :
    EventRef N H → EventRef N H → Prop :=
  Relation.ReflTransGen (ParentStep g)

/-- Holds when `b` is a proper (at least one parent link) ancestor of `a`. -/
abbrev ProperAncestor {N H : Type} [DecidableEq H] (g : Graph N H) :
    EventRef N H → EventRef N H → Prop :=
  Relation.TransGen (ParentStep g)

/-- Holds when the reference points at an event actually stored in the graph
at its index (the invariant every Rust `EventRef` borrowed from a `Graph`
satisfies by construction). -/
abbrev Stored {N H : Type} (g : Graph N H) (r : EventRef N H) : Prop :=
  g.events.get? r.index = some r.event

/-- The two-method `FailureDetector<N>` trait object over detector state `D`;
`&mut self` methods return the updated state. -/
structure FailureDetectorOps (N D : Type) where
  poll_failures : D → Except FailureDetectorError Unit × D
  dequeue_failures : D → List N × D

/-- The `InternalFailureDetector`: its state is its queue of unhandled
failures; `poll_failures` unconditionally returns `Err(Error::Poll)` (the
body is a `TODO`), and `dequeue_failures` drains the queue. -/
def internalFailureDetector (N : Type) : FailureDetectorOps N (List N) :=
  { poll_failures := fun failures => (Except.error FailureDetectorError.Poll, failures),
    dequeue_failures := fun failures => (failures, []) }

/-- A gossip message, from `Message` in `src/node_membership.rs`. -/
inductive Message (N H : Type) where
  | Event : Event N H → Message N H
deriving DecidableEq

/-- The node membership state machine, from `NodeMembership` in
`src/node_membership.rs`; the boxed `dyn FailureDetector<N>` is split into
its method table and its state. -/
structure NodeMembership (N H D : Type) where
  graph : Graph N H
  detector_ops : FailureDetectorOps N D
  failure_detector : D

/-- Constructs a new state of group membership (`NodeMembership::new`, which
delegates to `NodeMembership::default`): an empty graph and a fresh
`InternalFailureDetector`. -/
def NodeMembership.new (N H : Type) : NodeMembership N H (List N) :=
  { graph := Graph.new N H,
    detector_ops := internalFailureDetector N,
    failure_detector := [] }

/-- Polls the failure detector (`NodeMembership::poll`): propagates a polling
error as `Error::FailureDetector`, otherwise dequeues the detected failures,
discards them (the event-emission step is a `TODO` in the source) and returns
an empty message list. -/
def NodeMembership.poll {N H D : Type} (nm : NodeMembership N H D) :
    Except MembershipError (List (Message N H)) × NodeMembership N H D :=
  match nm.detector_ops.poll_failures nm.failure_detector with
  | (Except.error e, d1) =>
      (Except.error (MembershipError.FailureDetector e), { nm with failure_detector := d1 })
  | (Except.ok _, d1) =>
      let drained := nm.detector_ops.dequeue_failures d1
      (Except.ok [], { nm with failure_detector := drained.2 })

/-- Handles an incoming message (`NodeMembership::handle_message`): the body
is a `FIXME` stub that ignores the message and returns `Ok(Vec::new())`. -/
def NodeMembership.handle_message {N H D : Type} (nm : NodeMembership N H D)
    (_msg : Message N H) :
    Except MembershipError (List (Message N H)) × NodeMembership N H D :=
  (Except.ok [], nm)

/-- Returns the currently known group members (`NodeMembership::group`): the
body is a `FIXME` stub that returns `Vec::new()`. -/
def NodeMembership.group {N H D : Type} (_nm : NodeMembership N H D) : List N :=
  []

/-- Encoding of an optional hash used by `computeHash` below. -/
def encodeOpt : Option Nat → Nat
  | none => 0
  | some n => n + 1

/-- Encoding of a node-id list used by `computeHash` below. -/
def encodeList : List Nat → Nat
  | [] => 0
  | n :: rest => (n + 1) * 1000003 + encodeList rest

/-- Encoding of an action used by `computeHash` below. -/
def encodeAction : Action Nat → Nat
  | Action.Init members => 3 * encodeList members
  | Action.Add n => 3 * n + 1
  | Action.Remove n => 3 * n + 2

/-- Model of `compute_hash` from `src/hash.rs` at `N = Nat`, `H = Nat`: a
deterministic content digest of all four event fields, standing in for
SHA3-256 of the bincode serialization. -/
def computeHash (e : Event Nat Nat) : Nat :=
  ((e.creator_id * 1000003 + encodeOpt e.self_parent) * 1000003
      + encodeOpt e.other_parent) * 1000003 + encodeAction e.action

/-- Root event of the diamond-shaped test graph: `Genesis({0, 1, 2})`. -/
def genesisEvent : Event Nat Nat :=
  { creator_id := 0, self_parent := none, other_parent := none,
    action := Action.Init [0, 1, 2] }

/-- Left middle event of the diamond: self-parent is the genesis event. -/
def p1Event : Event Nat Nat :=
  { creator_id := 0, self_parent := some (computeHash genesisEvent),
    other_parent := none, action := Action.Add 1 }

/-- Right middle event of the diamond: self-parent is the genesis event. -/
def p2Event : Event Nat Nat :=
  { creator_id := 1, self_parent := some (computeHash genesisEvent),
    other_parent := none, action := Action.Add 2 }

/-- Top event of the diamond: self-parent `p1Event`, other-parent `p2Event`,
so the genesis event is reachable along two distinct parent paths. -/
def topEvent : Event Nat Nat :=
  { creator_id := 0, self_parent := some (computeHash p1Event),
    other_parent := some (computeHash p2Event), action := Action.Add 3 }

/-- The diamond-shaped test graph, built by four `Graph.insert` calls. -/
def diamondGraph : Graph Nat Nat :=
  (Graph.insert computeHash
    ((Graph.insert computeHash
      ((Graph.insert computeHash
        ((Graph.insert computeHash (Graph.new Nat Nat) genesisEvent).1)
        p1Event).1)
      p2Event).1)
    topEvent).1

/-- Reference to the genesis event stored at index 0 of `diamondGraph`. -/
def genesisRef : EventRef Nat Nat :=
  { event := genesisEvent, index := 0 }

/-- Reference to `p1Event` stored at index 1 of `diamondGraph`. -/
def p1Ref : EventRef Nat Nat :=
  { event := p1Event, index := 1 }

/-- Reference to `p2Event` stored at index 2 of `diamondGraph`. -/
def p2Ref : EventRef Nat Nat :=
  { event := p2Event, index := 2 }

/-- Reference to `topEvent` stored at index 3 of `diamondGraph`. -/
def topRef : EventRef Nat Nat :=
  { event := topEvent, index := 3 }

/-- Running the iterator on an empty queue yields nothing, at any fuel. -/
theorem iterateAncestors_nil {N H : Type} [DecidableEq H] (g : Graph N H) (n : Nat) :
    iterateAncestors g n ([] : List (EventRef N H)) = some [] := by
  cases n <;> simp [iterateAncestors, stepQueue]

/-- A completed run is insensitive to extra fuel. -/
theorem iterateAncestors_mono {N H : Type} [DecidableEq H] (g : Graph N H) :
    ∀ n q out, iterateAncestors g n q = some out →
      ∀ m, n ≤ m → iterateAncestors g m q = some out := by
  intro n
  induction n with
  | zero =>
      intro q out h m _
      cases q with
      | nil =>
          simp [iterateAncestors] at h
          subst h
          exact iterateAncestors_nil g m
      | cons r t => simp [iterateAncestors] at h
  | succ k ih =>
      intro q out h m hm
      cases q with
      | nil =>
          rw [iterateAncestors_nil] at h
          cases h
          exact iterateAncestors_nil g m
      | cons r t =>
          obtain ⟨m1, rfl⟩ : ∃ m1, m = m1 + 1 := ⟨m - 1, by omega⟩
          simp only [iterateAncestors, stepQueue] at h ⊢
          cases hrec : iterateAncestors g k (t ++ parentsOf g r) with
          | none => rw [hrec] at h; simp at h
          | some out1 =>
              rw [hrec] at h
              simp only [Option.map_some'] at h
              rw [ih _ _ hrec m1 (by omega)]
              simpa using h

/-- Two completed runs from the same queue yield the same output. -/
theorem iterateAncestors_agree {N H : Type} [DecidableEq H] (g : Graph N H)
    {n m : Nat} {q : List (EventRef N H)} {out out' : List (EventRef N H)}
    (h : iterateAncestors g n q = some out) (h' : iterateAncestors g m q = some out') :
    out = out' := by
  rcases Nat.le_total n m with hle | hle
  · have := iterateAncestors_mono g n q out h m hle
    rw [this] at h'
    exact Option.some.inj h'
  · have := iterateAncestors_mono g m q out' h' n hle
    rw [this] at h
    exact (Option.some.inj h).symm

/-- Every queue member of a completed run is yielded. -/
theorem mem_output_of_mem_queue {N H : Type} [DecidableEq H] (g : Graph N H) :
    ∀ n q out, iterateAncestors g n q = some out → ∀ x ∈ q, x ∈ out := by
  intro n
  induction n with
  | zero =>
      intro q out h x hx
      cases q with
      | nil => simp at hx
      | cons r t => simp [iterateAncestors] at h
  | succ k ih =>
      intro q out h x hx
      cases q with
      | nil => simp at hx
      | cons r t =>
          simp only [iterateAncestors, stepQueue] at h
          cases hrec : iterateAncestors g k (t ++ parentsOf g r) with
          | none => rw [hrec] at h; simp at h
          | some out1 =>
              rw [hrec] at h
              simp only [Option.map_some'] at h
              cases h
              rcases List.mem_cons.mp hx with rfl | hx1
              · exact List.mem_cons_self _ _
              · exact List.mem_cons_of_mem _
                  (ih _ _ hrec x (List.mem_append_left _ hx1))

/-- Every resolvable parent of a yielded event is itself yielded in the same
completed run. -/
theorem parents_mem_output {N H : Type} [DecidableEq H] (g : Graph N H) :
    ∀ n q out, iterateAncestors g n q = some out →
      ∀ x ∈ out, ∀ p ∈ parentsOf g x, p ∈ out := by
  intro n
  induction n with
  | zero =>
      intro q out h x hx p _
      cases q with
      | nil =>
          simp [iterateAncestors] at h
          subst h
          simp at hx
      | cons r t => simp [iterateAncestors] at h
  | succ k ih =>
      intro q out h x hx p hp
      cases q with
      | nil =>
          rw [iterateAncestors_nil] at h
          cases h
          simp at hx
      | cons r t =>
          simp only [iterateAncestors, stepQueue] at h
          cases hrec : iterateAncestors g k (t ++ parentsOf g r) with
          | none => rw [hrec] at h; simp at h
          | some out1 =>
              rw [hrec] at h
              simp only [Option.map_some'] at h
              cases h
              rcases List.mem_cons.mp hx with rfl | hx1
              · exact List.mem_cons_of_mem _
                  (mem_output_of_mem_queue g k _ _ hrec p (List.mem_append_right _ hp))
              · exact List.mem_cons_of_mem _ (ih _ _ hrec x hx1 p hp)

/-- Every yielded event of a completed run is reachable from `start`, provided
every queue member is. -/
theorem output_reaches {N H : Type} [DecidableEq H] (g : Graph N H)
    (start : EventRef N H) :
    ∀ n q out, iterateAncestors g n q = some out →
      (∀ y ∈ q, Reaches g start y) → ∀ x ∈ out, Reaches g start x := by
  intro n
  induction n with
  | zero =>
      intro q out h _ x hx
      cases q with
      | nil =>
          simp [iterateAncestors] at h
          subst h
          simp at hx
      | cons r t => simp [iterateAncestors] at h
  | succ k ih =>
      intro q out h hinv x hx
      cases q with
      | nil =>
          rw [iterateAncestors_nil] at h
          cases h
          simp at hx
      | cons r t =>
          simp only [iterateAncestors, stepQueue] at h
          cases hrec : iterateAncestors g k (t ++ parentsOf g r) with
          | none => rw [hrec] at h; simp at h
          | some out1 =>
              rw [hrec] at h
              simp only [Option.map_some'] at h
              cases h
              have hinv' : ∀ y ∈ t ++ parentsOf g r, Reaches g start y := by
                intro y hy
                rcases List.mem_append.mp hy with hy1 | hy1
                · exact hinv y (List.mem_cons_of_mem _ hy1)
                · exact Relation.ReflTransGen.tail
                    (hinv r (List.mem_cons_self _ _)) hy1
              rcases List.mem_cons.mp hx with rfl | hx1
              · exact hinv x (List.mem_cons_self _ _)
              · exact ih _ _ hrec hinv' x hx1


/-- A reference produced by `Graph::get_by_index` is stored at that index. -/
theorem stored_of_get_by_index {N H : Type} {g : Graph N H} {i : Nat} {r : EventRef N H}
    (h : g.get_by_index i = some r) : Stored g r ∧ r.index = i := by
  unfold Graph.get_by_index at h
  cases he : g.events.get? i with
  | none => rw [he] at h; simp at h
  | some e =>
      rw [he] at h
      simp only [Option.map_some'] at h
      cases h
      exact ⟨he, rfl⟩

/-- A reference produced by `Graph::get_by_hash` is stored. -/
theorem stored_of_get_by_hash {N H : Type} [DecidableEq H] {g : Graph N H} {hh : H}
    {r : EventRef N H} (h : g.get_by_hash hh = some r) : Stored g r := by
  unfold Graph.get_by_hash at h
  cases hi : g.get_index hh with
  | none => rw [hi] at h; simp at h
  | some i =>
      rw [hi] at h
      exact (stored_of_get_by_index h).1

/-- A reference contributed by `resolveParent` is stored. -/
theorem stored_of_mem_resolveParent {N H : Type} [DecidableEq H] {g : Graph N H}
    {oh : Option H} {p : EventRef N H} (h : p ∈ resolveParent g oh) : Stored g p := by
  cases oh with
  | none => exact absurd h (List.not_mem_nil p)
  | some hh =>
      cases hg : g.get_by_hash hh with
      | none => simp [resolveParent, hg] at h
      | some p1 =>
          simp only [resolveParent, hg, List.mem_singleton] at h
          subst h
          exact stored_of_get_by_hash hg

/-- Every resolved parent of an event is stored in the graph. -/
theorem stored_of_mem_parentsOf {N H : Type} [DecidableEq H] {g : Graph N H}
    {r p : EventRef N H} (h : p ∈ parentsOf g r) : Stored g p := by
  rcases List.mem_append.mp h with h1 | h1 <;> exact stored_of_mem_resolveParent h1

/-- A stored reference's index is within the event store. -/
theorem index_lt_of_stored {N H : Type} {g : Graph N H} {r : EventRef N H}
    (h : Stored g r) : r.index < g.events.length :=
  (List.get?_eq_some.mp h).1

/-- Two stored references with the same index are equal. -/
theorem stored_eq_of_index_eq {N H : Type} {g : Graph N H} {a b : EventRef N H}
    (ha : Stored g a) (hb : Stored g b) (hi : a.index = b.index) : a = b := by
  cases a with
  | mk ea ia =>
      cases b with
      | mk eb ib =>
          simp only at hi
          subst hi
          unfold Stored at ha hb
          simp only at ha hb
          rw [ha] at hb
          cases hb
          rfl

/-- Subtype of references stored in `g`, used for the termination argument. -/
abbrev StoredRef {N H : Type} (g : Graph N H) : Type :=
  { r : EventRef N H // Stored g r }

/-- Parent relation on stored references: `p` is a resolvable parent of `a`. -/
abbrev storedParentRel {N H : Type} [DecidableEq H] (g : Graph N H) :
    StoredRef g → StoredRef g → Prop :=
  fun p a => p.val ∈ parentsOf g a.val

/-- Stored references form a finite type: the index determines the event. -/
theorem finite_storedRef {N H : Type} (g : Graph N H) : Finite (StoredRef g) := by
  refine Finite.of_injective
    (fun s : StoredRef g => (⟨s.val.index, index_lt_of_stored s.property⟩ :
      Fin g.events.length)) ?_
  intro s t hst
  exact Subtype.ext
    (stored_eq_of_index_eq s.property t.property (congrArg Fin.val hst))

/-- A chain of stored parent links is a proper-ancestor chain in the graph. -/
theorem properAncestor_of_transGen_storedParentRel {N H : Type} [DecidableEq H]
    {g : Graph N H} {a b : StoredRef g}
    (h : Relation.TransGen (storedParentRel g) a b) :
    ProperAncestor g b.val a.val := by
  induction h with
  | single h1 => exact Relation.TransGen.single h1
  | tail _ h1 ih => exact Relation.TransGen.head h1 ih

/-- On an acyclic graph the stored parent relation is well founded. -/
theorem storedParentRel_wf {N H : Type} [DecidableEq H] (g : Graph N H)
    (hacyclic : ∀ r : EventRef N H, ¬ ProperAncestor g r r) :
    WellFounded (storedParentRel g) := by
  haveI : Finite (StoredRef g) := finite_storedRef g
  haveI : IsIrrefl (StoredRef g) (Relation.TransGen (storedParentRel g)) := by
    constructor
    intro s hs
    exact hacyclic s.val (properAncestor_of_transGen_storedParentRel hs)
  exact Subrelation.wf (fun h => Relation.TransGen.single h)
    (Finite.wellFounded_of_trans_of_irrefl _)

/-- The resolved parents of a stored reference, packaged with their
storedness proofs. -/
def storedParents {N H : Type} [DecidableEq H] (g : Graph N H) (a : StoredRef g) :
    List (StoredRef g) :=
  (parentsOf g a.val).attach.map (fun p => ⟨p.val, stored_of_mem_parentsOf p.property⟩)

/-- Unpacking `storedParents` recovers the resolved parents. -/
theorem storedParents_map_val {N H : Type} [DecidableEq H] (g : Graph N H)
    (a : StoredRef g) : (storedParents g a).map Subtype.val = parentsOf g a.val := by
  simp [storedParents, List.map_map, Function.comp]

/-- Path-count measure used to bound the traversal: one for the reference
itself plus the measures of all its resolved parents. -/
def storedSize {N H : Type} [DecidableEq H] (g : Graph N H)
    (hwf : WellFounded (storedParentRel g)) : StoredRef g → Nat :=
  hwf.fix (fun a rec =>
    1 + ((parentsOf g a.val).attach.map
      (fun p => rec ⟨p.val, stored_of_mem_parentsOf p.property⟩ p.property)).sum)

/-- Unfolding equation for `storedSize`. -/
theorem storedSize_eq {N H : Type} [DecidableEq H] (g : Graph N H)
    (hwf : WellFounded (storedParentRel g)) (a : StoredRef g) :
    storedSize g hwf a = 1 + ((storedParents g a).map (storedSize g hwf)).sum := by
  have h := hwf.fix_eq (fun a rec =>
    1 + ((parentsOf g a.val).attach.map
      (fun p => rec ⟨p.val, stored_of_mem_parentsOf p.property⟩ p.property)).sum) a
  calc storedSize g hwf a
      = 1 + ((parentsOf g a.val).attach.map
          (fun p => storedSize g hwf ⟨p.val, stored_of_mem_parentsOf p.property⟩)).sum := h
    _ = 1 + ((storedParents g a).map (storedSize g hwf)).sum := by
          rw [storedParents, List.map_map]
          rfl

/-- The measure is positive. -/
theorem storedSize_pos {N H : Type} [DecidableEq H] (g : Graph N H)
    (hwf : WellFounded (storedParentRel g)) (a : StoredRef g) :
    1 ≤ storedSize g hwf a := by
  rw [storedSize_eq]
  exact Nat.le_add_right 1 _

/-- Fuel equal to the summed measure of the queue completes the traversal. -/
theorem iterateAncestors_total_of_measure {N H : Type} [DecidableEq H] (g : Graph N H)
    (hwf : WellFounded (storedParentRel g)) :
    ∀ m (qs : List (StoredRef g)), ((qs.map (storedSize g hwf)).sum) ≤ m →
      ∃ out, iterateAncestors g m (qs.map Subtype.val) = some out := by
  intro m
  induction m with
  | zero =>
      intro qs hq
      cases qs with
      | nil => exact ⟨[], by simp [iterateAncestors]⟩
      | cons a t =>
          exfalso
          have h1 := storedSize_pos g hwf a
          simp only [List.map_cons, List.sum_cons] at hq
          omega
  | succ k ih =>
      intro qs hq
      cases qs with
      | nil => exact ⟨[], iterateAncestors_nil g _⟩
      | cons a t =>
          have hsz := storedSize_eq g hwf a
          have hm : (((t ++ storedParents g a).map (storedSize g hwf)).sum) ≤ k := by
            simp only [List.map_cons, List.sum_cons] at hq
            simp only [List.map_append, List.sum_append]
            omega
          obtain ⟨out1, hout1⟩ := ih (t ++ storedParents g a) hm
          refine ⟨a.val :: out1, ?_⟩
          simp only [List.map_cons, iterateAncestors, stepQueue]
          rw [← storedParents_map_val g a, ← List.map_append, hout1]
          rfl

/-- Index-decreasing parent links, checked over the finitely many stored
references, imply that no event is its own proper ancestor. -/
theorem acyclic_of_index_decreasing {N H : Type} [DecidableEq H] (g : Graph N H)
    (hfin : ∀ i : Fin g.events.length,
      ∀ b ∈ parentsOf g { event := g.events.get i, index := i.val }, b.index < i.val) :
    ∀ r : EventRef N H, ¬ ProperAncestor g r r := by
  have hdec : ∀ a b : EventRef N H, Stored g a → b ∈ parentsOf g a →
      b.index < a.index := by
    intro a b ha hb
    obtain ⟨hlt, hget⟩ := List.get?_eq_some.mp ha
    have ha' : ({ event := g.events.get ⟨a.index, hlt⟩, index := a.index } :
        EventRef N H) = a := by
      cases a
      simp only [EventRef.mk.injEq, and_true]
      exact hget
    exact hfin ⟨a.index, hlt⟩ b (by rw [ha']; exact hb)
  have key : ∀ a b : EventRef N H, ProperAncestor g a b →
      Stored g b ∧ (Stored g a → b.index < a.index) := by
    intro a b h
    induction h with
    | single h1 => exact ⟨stored_of_mem_parentsOf h1, fun ha => hdec _ _ ha h1⟩
    | tail _ h1 ih =>
        exact ⟨stored_of_mem_parentsOf h1,
          fun ha => lt_trans (hdec _ _ ih.1 h1) (ih.2 ha)⟩
  intro r hr
  obtain ⟨hs, hlt⟩ := key r r hr
  exact lt_irrefl _ (hlt hs)

/-- C7: on a graph that is acyclic under the resolvable self-parent and
other-parent relation (no event is its own proper ancestor), the ancestor
iterator started at any stored event yields only finitely many items: some
finite fuel completes the traversal, i.e. repeated calls to `next`
eventually return `None`. -/
theorem ancestors_terminate_on_acyclic {N H : Type} [DecidableEq H]
    (g : Graph N H) (start : EventRef N H) (hstored : Stored g start)
    (hacyclic : ∀ r : EventRef N H, ¬ ProperAncestor g r r) :
    ∃ n out, Graph.ancestors g start n = some out := by
  have hwf := storedParentRel_wf g hacyclic
  obtain ⟨out, hout⟩ := iterateAncestors_total_of_measure g hwf
    (storedSize g hwf ⟨start, hstored⟩) [⟨start, hstored⟩] (by simp)
  exact ⟨storedSize g hwf ⟨start, hstored⟩, out, hout⟩

/-- Witness for C7 at the diamond graph: its parent links are
index-decreasing, hence acyclic, and the traversal from `topRef` completes. -/
theorem ancestors_terminate_on_acyclic_witness :
    ∃ n out, Graph.ancestors diamondGraph topRef n = some out :=
  ancestors_terminate_on_acyclic diamondGraph topRef (by decide)
    (acyclic_of_index_decreasing diamondGraph (by decide))

/-- C1 (as stated) is false: in `diamondGraph` the genesis event is reachable
from `topRef` along two parent paths, and the completed traversal yields it
twice, not exactly once. -/
theorem ancestors_duplicate_yield_counterexample :
    Graph.ancestors diamondGraph topRef 10 =
      some [topRef, p2Ref, p1Ref, genesisRef, genesisRef] ∧
    List.count genesisRef
      ((Graph.ancestors diamondGraph topRef 10).getD []) = 2 := by
  constructor <;> decide

/-- C1 (amended): a completed ancestor traversal yields exactly the set of
events reachable from the queried event by resolvable parent links — the
event itself and its transitive parent closure — each at least once; an
ancestor reachable along more than one parent path may be yielded more than
once, since `AncestorIter` keeps no seen-set. -/
theorem ancestors_yield_exactly_reachable {N H : Type} [DecidableEq H]
    (g : Graph N H) (start : EventRef N H) (n : Nat) (out : List (EventRef N H))
    (hrun : Graph.ancestors g start n = some out) :
    ∀ x, x ∈ out ↔ Reaches g start x := by
  intro x
  constructor
  · intro hx
    refine output_reaches g start n [start] out hrun ?_ x hx
    intro y hy
    rcases List.mem_singleton.mp hy with rfl
    exact Relation.ReflTransGen.refl
  · intro hx
    induction hx with
    | refl =>
        exact mem_output_of_mem_queue g n [start] out hrun start
          (List.mem_singleton.mpr rfl)
    | tail _ hstep ih => exact parents_mem_output g n [start] out hrun _ ih _ hstep

/-- Witness for C1 (amended) at the diamond graph: the traversal output
membership of the genesis event transfers to reachability. -/
theorem ancestors_yield_exactly_reachable_witness :
    Reaches diamondGraph topRef genesisRef :=
  (ancestors_yield_exactly_reachable diamondGraph topRef 10
      [topRef, p2Ref, p1Ref, genesisRef, genesisRef] (by decide) genesisRef).mp
    (by decide)

/-- C6: the ancestor traversal is deterministic and explores the
other-parent branch before the self-parent branch: when both parents of the
queried event resolve, a completed traversal yields the event, then its
other-parent, then its self-parent; and any two completed traversals of the
same event on the same graph yield identical sequences. -/
theorem ancestors_other_parent_before_self_parent {N H : Type} [DecidableEq H]
    (g : Graph N H) (r po ps : EventRef N H) (hOther hSelf : H)
    (n : Nat) (out : List (EventRef N H))
    (hoh : r.event.other_parent = some hOther)
    (hpo : g.get_by_hash hOther = some po)
    (hsh : r.event.self_parent = some hSelf)
    (hps : g.get_by_hash hSelf = some ps)
    (hrun : Graph.ancestors g r n = some out) :
    (∃ rest, out = r :: po :: ps :: rest) ∧
      ∀ m out2, Graph.ancestors g r m = some out2 → out2 = out := by
  have hpar : parentsOf g r = [po, ps] := by
    simp [parentsOf, resolveParent, hoh, hsh, hpo, hps]
  refine ⟨?_, fun m out2 h2 => iterateAncestors_agree g h2 hrun⟩
  unfold Graph.ancestors at hrun
  cases n with
  | zero => simp [iterateAncestors] at hrun
  | succ n1 =>
      simp only [iterateAncestors, stepQueue, List.nil_append, hpar] at hrun
      cases h1 : iterateAncestors g n1 [po, ps] with
      | none => rw [h1] at hrun; simp at hrun
      | some out1 =>
          rw [h1] at hrun
          simp only [Option.map_some'] at hrun
          cases hrun
          cases n1 with
          | zero => simp [iterateAncestors] at h1
          | succ n2 =>
              simp only [iterateAncestors, stepQueue, List.cons_append,
                List.nil_append] at h1
              cases h2 : iterateAncestors g n2 (ps :: parentsOf g po) with
              | none => rw [h2] at h1; simp at h1
              | some out2 =>
                  rw [h2] at h1
                  simp only [Option.map_some'] at h1
                  cases h1
                  cases n2 with
                  | zero => simp [iterateAncestors] at h2
                  | succ n3 =>
                      simp only [iterateAncestors, stepQueue] at h2
                      cases h3 : iterateAncestors g n3
                          (parentsOf g po ++ parentsOf g ps) with
                      | none => rw [h3] at h2; simp at h2
                      | some out3 =>
                          rw [h3] at h2
                          simp only [Option.map_some'] at h2
                          cases h2
                          exact ⟨out3, rfl⟩

/-- Witness for C6 at the diamond graph: the other-parent `p2Ref` is yielded
before the self-parent `p1Ref`. -/
theorem ancestors_other_parent_before_self_parent_witness :
    ∃ rest, [topRef, p2Ref, p1Ref, genesisRef, genesisRef] =
      topRef :: p2Ref :: p1Ref :: rest :=
  (ancestors_other_parent_before_self_parent diamondGraph topRef p2Ref p1Ref
      (computeHash p2Event) (computeHash p1Event) 10
      [topRef, p2Ref, p1Ref, genesisRef, genesisRef]
      (by decide) (by decide) (by decide) (by decide) (by decide)).1

/-- C10: the ancestor traversal is total and silently skips dangling parent
hashes: when the queried event's other-parent hash has no corresponding event
in the graph while its self-parent resolves, `next` enqueues nothing for the
dangling hash, yields the event, and the traversal continues exactly as if
started from the self-parent — no error condition exists. -/
theorem ancestors_skip_dangling_parent {N H : Type} [DecidableEq H]
    (g : Graph N H) (r ps : EventRef N H) (hOther hSelf : H) (n : Nat)
    (hoh : r.event.other_parent = some hOther)
    (hdangling : g.get_index hOther = none)
    (hsh : r.event.self_parent = some hSelf)
    (hps : g.get_by_hash hSelf = some ps) :
    Graph.ancestors g r (n + 1) =
      (iterateAncestors g n [ps]).map (fun out => r :: out) := by
  have hres : resolveParent g r.event.other_parent = [] := by
    simp [resolveParent, hoh, Graph.get_by_hash, hdangling]
  have hres2 : resolveParent g r.event.self_parent = [ps] := by
    rw [hsh]
    simp [resolveParent, hps]
  have hpar : parentsOf g r = [ps] := by
    simp only [parentsOf, hres, hres2, List.nil_append]
  show iterateAncestors g (n + 1) [r] = _
  simp only [iterateAncestors, stepQueue, List.nil_append, hpar]

/-- Event whose other-parent hash (999999) resolves to nothing, used for the
C10 witness; its self-parent is the stored genesis event. -/
def danglingEvent : Event Nat Nat :=
  { creator_id := 1, self_parent := some (computeHash genesisEvent),
    other_parent := some 999999, action := Action.Add 7 }

/-- Two-event graph holding the genesis event and `danglingEvent`. -/
def danglingGraph : Graph Nat Nat :=
  (Graph.insert computeHash
    ((Graph.insert computeHash (Graph.new Nat Nat) genesisEvent).1)
    danglingEvent).1

/-- Reference to `danglingEvent` stored at index 1 of `danglingGraph`. -/
def danglingRef : EventRef Nat Nat :=
  { event := danglingEvent, index := 1 }

/-- Witness for C10: in `danglingGraph` the traversal of `danglingEvent`
skips the unresolvable hash 999999 and continues from the genesis event. -/
theorem ancestors_skip_dangling_parent_witness :
    Graph.ancestors danglingGraph danglingRef 6 =
      (iterateAncestors danglingGraph 5 [genesisRef]).map
        (fun out => danglingRef :: out) :=
  ancestors_skip_dangling_parent danglingGraph danglingRef genesisRef
    999999 (computeHash genesisEvent) 5
    (by decide) (by decide) (by decide) (by decide)

/-- C2: `Graph::insert` is idempotent: re-inserting an event leaves the graph
unchanged (so the event count is unchanged) and both calls return the same
stored index. -/
theorem insert_idempotent {N H : Type} [DecidableEq H] (hash : Event N H → H)
    (g : Graph N H) (e : Event N H) :
    (Graph.insert hash (Graph.insert hash g e).1 e).1 = (Graph.insert hash g e).1 ∧
    (Graph.insert hash (Graph.insert hash g e).1 e).1.events.length =
      (Graph.insert hash g e).1.events.length ∧
    (Graph.insert hash (Graph.insert hash g e).1 e).2 = (Graph.insert hash g e).2 := by
  cases hl : g.get_index (hash e) with
  | some i => simp [Graph.insert, hl]
  | none =>
      have hl2 : lookupIndex g.indices (hash e) = none := hl
      simp [Graph.insert, Graph.get_index, lookupIndex, hl2]

/-- Witness for C2 at a concrete graph and event. -/
theorem insert_idempotent_witness :
    (Graph.insert computeHash
        (Graph.insert computeHash (Graph.new Nat Nat) genesisEvent).1
        genesisEvent).1 =
      (Graph.insert computeHash (Graph.new Nat Nat) genesisEvent).1 ∧
    (Graph.insert computeHash
        (Graph.insert computeHash (Graph.new Nat Nat) genesisEvent).1
        genesisEvent).1.events.length =
      (Graph.insert computeHash (Graph.new Nat Nat) genesisEvent).1.events.length ∧
    (Graph.insert computeHash
        (Graph.insert computeHash (Graph.new Nat Nat) genesisEvent).1
        genesisEvent).2 =
      (Graph.insert computeHash (Graph.new Nat Nat) genesisEvent).2 :=
  insert_idempotent computeHash (Graph.new Nat Nat) genesisEvent

/-- C3 fails on the code: `NodeMembership::handle_message` is a `FIXME` stub
that ignores the message, so delivering `Message::Event(genesisEvent)` to a
fresh node returns `Ok` with no messages, leaves the node unchanged, and the
graph afterwards still does not contain the event's hash. -/
theorem handle_message_ignores_event :
    NodeMembership.handle_message (NodeMembership.new Nat Nat)
        (Message.Event genesisEvent) =
      (Except.ok [], NodeMembership.new Nat Nat) ∧
    (NodeMembership.handle_message (NodeMembership.new Nat Nat)
        (Message.Event genesisEvent)).2.graph.contains (computeHash genesisEvent)
      = false :=
  ⟨rfl, by decide⟩

/-- Detector used to exercise `poll` on its success path: `poll_failures`
succeeds without touching the queue and `dequeue_failures` drains it. -/
def succeedingDetector (N : Type) : FailureDetectorOps N (List N) :=
  { poll_failures := fun failures => (Except.ok (), failures),
    dequeue_failures := fun failures => (failures, []) }

/-- C4 fails on the code: with a detector that succeeds and reports exactly
one failure (node 5), `poll` succeeds but emits no message and leaves the
graph unchanged — the event-emission step is a `TODO` in the source. -/
theorem poll_ignores_detected_failures :
    ((succeedingDetector Nat).dequeue_failures [5]).1.length = 1 ∧
    NodeMembership.poll
        { graph := Graph.new Nat Nat, detector_ops := succeedingDetector Nat,
          failure_detector := [5] } =
      (Except.ok [],
        { graph := Graph.new Nat Nat, detector_ops := succeedingDetector Nat,
          failure_detector := [] }) :=
  ⟨rfl, rfl⟩

/-- Node whose graph holds exactly the genesis event `Genesis({0, 1, 2})`. -/
def genesisNode : NodeMembership Nat Nat (List Nat) :=
  { graph := (Graph.insert computeHash (Graph.new Nat Nat) genesisEvent).1,
    detector_ops := internalFailureDetector Nat,
    failure_detector := [] }

/-- C5 fails on the code: `NodeMembership::group` is a `FIXME` stub returning
an empty vector, so on a graph holding exactly `Genesis({0, 1, 2})` it
returns `[]`, not `{0, 1, 2}`. -/
theorem group_empty_despite_genesis :
    genesisNode.graph.events = [genesisEvent] ∧
    NodeMembership.group genesisNode = [] ∧
    NodeMembership.group genesisNode ≠ [0, 1, 2] :=
  ⟨by decide, rfl, by decide⟩

/-- Out-of-band event whose `other_parent` hash (424242) corresponds to no
event in the empty graph of a fresh node, simulating a malicious peer. -/
def outOfBandEvent : Event Nat Nat :=
  { creator_id := 2, self_parent := none, other_parent := some 424242,
    action := Action.Add 9 }

/-- C8 is half right on the code: delivering an event with a dangling
other-parent leaves the graph unchanged, but `handle_message` is a `FIXME`
stub returning `Ok` — no error is reported, the message is silently
dropped rather than rejected. -/
theorem handle_message_dangling_parent_not_rejected :
    (NodeMembership.new Nat Nat).graph.contains 424242 = false ∧
    NodeMembership.handle_message (NodeMembership.new Nat Nat)
        (Message.Event outOfBandEvent) =
      (Except.ok [], NodeMembership.new Nat Nat) :=
  ⟨by decide, rfl⟩

/-- C9: every `NodeMembership` built over the `InternalFailureDetector` — the
only detector `new`/`default` install — has `poll` return
`Err(FailureDetector(Poll))`: no messages are emitted and the node state,
graph included, is unchanged. -/
theorem poll_with_internal_detector_always_errors (N H : Type) (g : Graph N H)
    (d : List N) :
    NodeMembership.poll
        { graph := g, detector_ops := internalFailureDetector N,
          failure_detector := d } =
      (Except.error (MembershipError.FailureDetector FailureDetectorError.Poll),
        { graph := g, detector_ops := internalFailureDetector N,
          failure_detector := d }) := rfl

/-- Witness for C9 at a freshly constructed node. -/
theorem poll_with_internal_detector_always_errors_witness :
    NodeMembership.poll (NodeMembership.new Nat Nat) =
      (Except.error (MembershipError.FailureDetector FailureDetectorError.Poll),
        NodeMembership.new Nat Nat) :=
  poll_with_internal_detector_always_errors Nat Nat (Graph.new Nat Nat) []

end Gossip
